import Mathlib

/-!
Verification of the numerical core of `DynamicProgramming/GEModel.py`, a
buffer-stock consumption-saving model solved by the endogenous grid method
(EGM) and simulated by forward propagation of a probability mass.

Shallow embedding conventions:
* machine floats become exact rationals (`ℚ`);
* dense `Ne × Na` numpy arrays become total functions `ℕ → ℕ → ℚ`, with the
  index ranges `[0, Ne)` and `[0, Na)` carried in the statements;
* the CRRA power kernels `x ** (-1/par.sigma)` and `x ** (-par.sigma)`
  (floating-point powers computed by numpy) are abstract function
  parameters `upInv` and `upNeg`: every theorem below holds for any
  interpretation of these two kernels;
* the `while` loops of `solve_household_ss` and `simulate_ss` become
  fuel-indexed recursions whose fuel bounds the iteration count exactly as
  the python iteration counter does;
* a raised `Exception` becomes `Except.error ()`.
-/

namespace GEModel

/-- An `Ne × Na` array, embedded as a total function on indices. -/
abbrev Mat : Type := ℕ → ℕ → ℚ

/-- The `while half:` loop of `binary_search` (GEModel.py lines 320-327).
State is `(imin, Nx)`; each pass sets `imid = imin + Nx//2`, moves `imin`
up to `imid` when `x[imid] <= xi`, and shrinks `Nx` to `Nx - Nx//2`.  The
first argument is structural fuel; since `Nx` strictly decreases on every
pass, fuel `Nx` (as supplied by `binary_search`) is never exhausted. -/
def bsearchLoop (x : ℕ → ℚ) (xi : ℚ) : ℕ → ℕ → ℕ → ℕ
  | 0, imin, _ => imin
  | fuel + 1, imin, Nx =>
    if Nx / 2 = 0 then imin
    else
      bsearchLoop x xi fuel
        (if x (imin + Nx / 2) ≤ xi then imin + Nx / 2 else imin)
        (Nx - Nx / 2)

/-- `binary_search(imin, x, xi)` (GEModel.py lines 307-328).  `Nx` is the
size `x.size` of the grid, passed explicitly.  Queries at or below `x[0]`
clamp to `0`, queries at or above `x[Nx-2]` clamp to `Nx-2`; otherwise the
bisection loop runs. -/
def binary_search (imin : ℕ) (Nx : ℕ) (x : ℕ → ℚ) (xi : ℚ) : ℕ :=
  if xi ≤ x 0 then 0
  else if x (Nx - 2) ≤ xi then Nx - 2
  else bsearchLoop x xi Nx imin Nx

/-- Modelled from the spec: the monotone 1-D interpolation primitive
`consav.linear_interp.interp_1d_vec` is external to this repository (it
lives in the `consav` package, not under `src/`).  Per the spec (section
4.1 step 3 and section 2), it performs monotone linear interpolation of
the query `q` against the pairs `(x i, y i)`, with flat extrapolation
below the lowest abscissa and above the highest, locating the bracketing
interval with the clamped binary search above. -/
def interp_1d (Nx : ℕ) (x y : ℕ → ℚ) (q : ℚ) : ℚ :=
  if q ≤ x 0 then y 0
  else if x (Nx - 1) ≤ q then y (Nx - 1)
  else
    y (binary_search 0 Nx x q) +
      (y (binary_search 0 Nx x q + 1) - y (binary_search 0 Nx x q)) *
        (q - x (binary_search 0 Nx x q)) /
          (x (binary_search 0 Nx x q + 1) - x (binary_search 0 Nx x q))

/-- `marg_u_plus = (par.beta*par.e_trans)@Va_p` (GEModel.py line 290):
the discounted expectation of next-period marginal value. -/
def margUplus (Ne : ℕ) (beta : ℚ) (e_trans Va_p : Mat) : Mat :=
  fun e j => ∑ k ∈ Finset.range Ne, beta * e_trans e k * Va_p k j

/-- The endogenous cash-on-hand grid `m_endo = c_endo + par.a_grid`
(GEModel.py lines 296-297), where `c_endo = marg_u_plus[i_e]**(-1/sigma)`
is the abstract inverse-marginal-utility kernel `upInv` applied
elementwise. -/
def m_endo (upInv : ℚ → ℚ) (g : ℕ → ℚ) (margU : Mat) (e : ℕ) : ℕ → ℚ :=
  fun j => upInv (margU e j) + g j

/-- One row of the interpolation step
`linear_interp.interp_1d_vec(m_endo, par.a_grid, m[i_e], a[i_e])`
(GEModel.py line 300). -/
def assetRow (Na : ℕ) (g : ℕ → ℚ) (mEndoRow mRow : ℕ → ℚ) : ℕ → ℚ :=
  fun j => interp_1d Na mEndoRow g (mRow j)

/-- The borrowing-constraint clamp `a[i_e,0] = np.fmax(a[i_e,0],0)`
(GEModel.py line 301), applied to a row: only entry `0` is clamped. -/
def clampRow (row : ℕ → ℚ) : ℕ → ℚ :=
  fun j => if j = 0 then max (row 0) 0 else row j

/-- `time_iteration(par,r,w,Va_p,Va,a,c,m)` (GEModel.py lines 285-305) as
a function of its inputs, returning the written arrays `(a, c, Va)`.
`w` is accepted (as in the source signature) but unused by the body.
The per-income-state loop body is: interpolate the exogenous cash-on-hand
row against the endogenous grid, clamp entry 0, set `c = m - a`, and set
`Va = (1+r)*c**(-sigma)` with the abstract kernel `upNeg`. -/
def time_iteration (Ne Na : ℕ) (beta : ℚ) (upInv upNeg : ℚ → ℚ)
    (e_trans : Mat) (g : ℕ → ℚ) (r w : ℚ) (Va_p m : Mat) :
    Mat × Mat × Mat :=
  let margU := margUplus Ne beta e_trans Va_p
  let a : Mat := fun e => clampRow (assetRow Na g (m_endo upInv g margU e) (m e))
  let c : Mat := fun e j => m e j - a e j
  let Va : Mat := fun e j => (1 + r) * upNeg (c e j)
  (a, c, Va)

/-- Overwrite row `e` of a matrix, modelling an in-place write `M[e] = row`. -/
def updateRow (M : Mat) (e : ℕ) (row : ℕ → ℚ) : Mat :=
  fun i j => if i = e then row j else M i j

/-- One pass of the in-place EGM loop body (GEModel.py lines 293-305)
over the mutable state `(Va, a, c)`: write row `e` of `a` (interpolation
plus clamp), then row `e` of `c` reading the just-written `a` row, then
row `e` of `Va` reading the just-written `c` row.  `margU` is the
snapshot of `marg_u_plus` taken before the loop. -/
def egmRowStep (Na : ℕ) (upInv upNeg : ℚ → ℚ) (g : ℕ → ℚ) (r : ℚ) (m : Mat)
    (margU : Mat) (s : Mat × Mat × Mat) (e : ℕ) : Mat × Mat × Mat :=
  let aRow := clampRow (assetRow Na g (m_endo upInv g margU e) (m e))
  let a2 := updateRow s.2.1 e aRow
  let cRow := fun j => m e j - a2 e j
  let c2 := updateRow s.2.2 e cRow
  let VaRow := fun j => (1 + r) * upNeg (c2 e j)
  (updateRow s.1 e VaRow, a2, c2)

/-- The call `time_iteration(par,r,w,sol.Va,sol.Va,sol.a,sol.c,sol.m)`
(GEModel.py line 207) with the output array `Va` aliased to the input
`Va_p`, modelled operationally: the state `(Va, a, c)` holds the three
mutable arrays; `marg_u_plus` is computed from the state's `Va` before
the loop, and the loop then overwrites the rows of all three arrays in
sequence, reading only the snapshot `margU`, the fixed `m`, and the rows
written earlier in the same pass. -/
def time_iteration_inplace (Ne Na : ℕ) (beta : ℚ) (upInv upNeg : ℚ → ℚ)
    (e_trans : Mat) (g : ℕ → ℚ) (r w : ℚ) (m : Mat)
    (st : Mat × Mat × Mat) : Mat × Mat × Mat :=
  let margU := margUplus Ne beta e_trans st.1
  List.foldl (egmRowStep Na upInv upNeg g r m margU) st (List.range Ne)

/-- `find_i_and_w(par,sim,a)` (GEModel.py lines 330-347): for each cell,
the bracketing lower index from the clamped binary search over the asset
grid, and the weight `(grid[i+1] - a_) / (grid[i+1] - grid[i])`. -/
def find_i_and_w (Na : ℕ) (g : ℕ → ℚ) (a : Mat) : (ℕ → ℕ → ℕ) × Mat :=
  (fun e j => binary_search 0 Na g (a e j),
   fun e j =>
     (g (binary_search 0 Na g (a e j) + 1) - a e j) /
       (g (binary_search 0 Na g (a e j) + 1) - g (binary_search 0 Na g (a e j))))

/-- A single scatter update `M[e,j] += v`. -/
def addAt (M : Mat) (e j : ℕ) (v : ℚ) : Mat :=
  fun e2 j2 => if e2 = e ∧ j2 = j then M e2 j2 + v else M e2 j2

/-- The cell indices `(i_e, i_a)` traversed by the nested loops of
`simulate` (GEModel.py lines 355-356). -/
def cellList (Ne Na : ℕ) : List (ℕ × ℕ) :=
  (List.range Ne).flatMap (fun e => (List.range Na).map (fun a => (e, a)))

/-- One body pass of the scatter loop (GEModel.py lines 358-365):
`Dnew[i_e,i] += D_*w; Dnew[i_e,i+1] += D_*(1.0-w)`. -/
def scatterStep (idx : ℕ → ℕ → ℕ) (wgt D : Mat) (M : Mat) (p : ℕ × ℕ) : Mat :=
  addAt (addAt M p.1 (idx p.1 p.2) (D p.1 p.2 * wgt p.1 p.2))
    p.1 (idx p.1 p.2 + 1) (D p.1 p.2 * (1 - wgt p.1 p.2))

/-- The full scatter of mass onto bracketing grid points, starting from
`Dnew = np.zeros(D.shape)` (GEModel.py lines 354-365). -/
def scatter (Ne Na : ℕ) (idx : ℕ → ℕ → ℕ) (wgt D : Mat) : Mat :=
  List.foldl (scatterStep idx wgt D) (fun _ _ => 0) (cellList Ne Na)

/-- `simulate(par,sim,e_trans_T,D)` (GEModel.py lines 349-370): scatter,
then `Dnew_ = e_trans_T@Dnew`. -/
def simulate (Ne Na : ℕ) (e_trans_T : Mat) (idx : ℕ → ℕ → ℕ) (wgt D : Mat) : Mat :=
  fun e j => ∑ k ∈ Finset.range Ne, e_trans_T e k * scatter Ne Na idx wgt D k j

/-- Total probability mass of an `Ne × Na` array. -/
def totalMass (Ne Na : ℕ) (M : Mat) : ℚ :=
  ∑ e ∈ Finset.range Ne, ∑ j ∈ Finset.range Na, M e j

/-- `np.max(np.abs(A - B))` over the `Ne × Na` cells (the seed `0` is
neutral: every `|A - B|` is nonnegative). -/
def maxAbsDiff (Ne Na : ℕ) (A B : Mat) : ℚ :=
  (Finset.range Ne ×ˢ Finset.range Na).fold max 0 (fun p => |A p.1 p.2 - B p.1 p.2|)

/-- The `while True:` convergence loop of `solve_household_ss`
(GEModel.py lines 200-214): apply `step`, break returning the NEW state
when `dist old new < tol`, otherwise raise once the iteration counter
would exceed the cap (i.e. after `maxIter + 1` consecutive failed
checks, matching `it > par.max_iter_solve` with `it` starting at 0). -/
def iterUntilNew {S : Type} (step : S → S) (dist : S → S → ℚ) (tol : ℚ) :
    ℕ → S → Except Unit S
  | 0, s => if dist s (step s) < tol then Except.ok (step s) else Except.error ()
  | fuel + 1, s =>
    if dist s (step s) < tol then Except.ok (step s)
    else iterUntilNew step dist tol fuel (step s)

/-- The `while True:` convergence loop of `simulate_ss` (GEModel.py lines
381-393): as `iterUntilNew`, but on success the loop breaks BEFORE
`D = Dnew`, so the OLD state is the one saved (`sim.D = D`). -/
def iterUntilOld {S : Type} (step : S → S) (dist : S → S → ℚ) (tol : ℚ) :
    ℕ → S → Except Unit S
  | 0, s => if dist s (step s) < tol then Except.ok s else Except.error ()
  | fuel + 1, s =>
    if dist s (step s) < tol then Except.ok s
    else iterUntilOld step dist tol fuel (step s)

/-- `sol.m = (1+r)*par.a_grid[np.newaxis,:] + w*par.e_grid[:,np.newaxis]`
(GEModel.py line 197). -/
def cash_on_hand (g e_grid : ℕ → ℚ) (r w : ℚ) : Mat :=
  fun e j => (1 + r) * g j + w * e_grid e

/-- One pass of the steady-state solve loop (GEModel.py line 207): the
EGM step applied to the current `(a, c, Va)` state, feeding the state's
`Va` back in as `Va_p`. -/
def egmStep (Ne Na : ℕ) (beta : ℚ) (upInv upNeg : ℚ → ℚ) (e_trans : Mat)
    (g : ℕ → ℚ) (r w : ℚ) (m : Mat) : Mat × Mat × Mat → Mat × Mat × Mat :=
  fun st => time_iteration Ne Na beta upInv upNeg e_trans g r w st.2.2 m

/-- The fixed-point portion of `solve_household_ss` (GEModel.py lines
183-214): build the cash-on-hand grid, then iterate `time_iteration`
until `np.max(np.abs(sol.a - a_old)) < par.solve_tol`, raising after the
counter exceeds `par.max_iter_solve`.  `st0 = (a, c, Va)` is the state of
the solution arrays on entry (the initial-guess formula of line 198 just
fixes a particular `Va` component). -/
def solve_household_ss (Ne Na : ℕ) (beta : ℚ) (upInv upNeg : ℚ → ℚ)
    (e_trans : Mat) (e_grid g : ℕ → ℚ) (r w : ℚ) (maxIter : ℕ) (tol : ℚ)
    (st0 : Mat × Mat × Mat) : Except Unit (Mat × Mat × Mat) :=
  iterUntilNew (egmStep Ne Na beta upInv upNeg e_trans g r w (cash_on_hand g e_grid r w))
    (fun s s2 => maxAbsDiff Ne Na s2.1 s.1) tol maxIter st0

/-- One pass of the steady-state simulation loop (GEModel.py line 385):
`simulate` with the transposed transition matrix and the indices and
weights computed once from the converged asset policy. -/
def simStep (Ne Na : ℕ) (e_trans : Mat) (g : ℕ → ℚ) (aPol : Mat) : Mat → Mat :=
  fun D => simulate Ne Na (fun i j => e_trans j i)
    (find_i_and_w Na g aPol).1 (find_i_and_w Na g aPol).2 D

/-- `simulate_ss(par,sol,sim,D)` (GEModel.py lines 372-397): compute the
interpolation weights from the asset policy, then iterate `simulate`
until `np.max(np.abs(Dnew - D)) < par.simulate_tol`, raising after the
counter exceeds `par.max_iter_simulate`. -/
def simulate_ss (Ne Na : ℕ) (e_trans : Mat) (g : ℕ → ℚ) (aPol : Mat)
    (maxIter : ℕ) (tol : ℚ) (D0 : Mat) : Except Unit Mat :=
  iterUntilOld (simStep Ne Na e_trans g aPol)
    (fun D Dnew => maxAbsDiff Ne Na Dnew D) tol maxIter D0

/-- Spec-side formulation of the expectation step, as written in the
spec: `marg_u_plus = beta · (transition @ Va_p)`. -/
def marg_u_plus_spec (Ne : ℕ) (beta : ℚ) (e_trans Va_p : Mat) : Mat :=
  fun e j => beta * ∑ k ∈ Finset.range Ne, e_trans e k * Va_p k j

/-- Spec-side endogenous consumption `c_endo = marg_u_plus[e,:]^(-1/σ)`. -/
def c_endo_spec (Ne : ℕ) (beta : ℚ) (upInv : ℚ → ℚ) (e_trans Va_p : Mat) : Mat :=
  fun e j => upInv (marg_u_plus_spec Ne beta e_trans Va_p e j)

/-- Spec-side endogenous cash-on-hand grid `m_endo = c_endo + assetGrid`. -/
def m_endo_spec (Ne : ℕ) (beta : ℚ) (upInv : ℚ → ℚ) (e_trans Va_p : Mat)
    (g : ℕ → ℚ) : Mat :=
  fun e j => c_endo_spec Ne beta upInv e_trans Va_p e j + g j

/-- Spec-side asset policy: `assets[e,:]` obtained by 1-D interpolation
of `m[e,:]` against the `(m_endo, assetGrid)` pairs. -/
def assets_spec (Ne Na : ℕ) (beta : ℚ) (upInv : ℚ → ℚ) (e_trans Va_p : Mat)
    (g : ℕ → ℚ) (m : Mat) : Mat :=
  fun e j => interp_1d Na (fun k => m_endo_spec Ne beta upInv e_trans Va_p g e k) g (m e j)

/-- Spec-side consumption policy `consumption[e,:] = m[e,:] - assets[e,:]`. -/
def consumption_spec (Ne Na : ℕ) (beta : ℚ) (upInv : ℚ → ℚ) (e_trans Va_p : Mat)
    (g : ℕ → ℚ) (m : Mat) : Mat :=
  fun e j => m e j - assets_spec Ne Na beta upInv e_trans Va_p g m e j

/-- Spec-side envelope condition `Va[e,:] = (1+r) · consumption[e,:]^(-σ)`. -/
def Va_spec (Ne Na : ℕ) (beta : ℚ) (upInv upNeg : ℚ → ℚ) (e_trans Va_p : Mat)
    (g : ℕ → ℚ) (r : ℚ) (m : Mat) : Mat :=
  fun e j => (1 + r) * upNeg (consumption_spec Ne Na beta upInv e_trans Va_p g m e j)

/-! ### Helper lemmas: the bisection loop -/

/-- Nonstrict index monotonicity from the strict transitive form. -/
lemma strictIdx_le {x : ℕ → ℚ} {Nx : ℕ}
    (hmono : ∀ i j, i < j → j < Nx → x i < x j)
    {i j : ℕ} (hij : i ≤ j) (hj : j < Nx) : x i ≤ x j := by
  rcases Nat.eq_or_lt_of_le hij with h | h
  · rw [h]
  · exact (hmono i j h hj).le

/-- The loop only ever moves `imin` to a tested index whose grid value is
at most the query, so the lower bracket bound is invariant. -/
lemma bsearchLoop_lower (x : ℕ → ℚ) (xi : ℚ) :
    ∀ fuel imin Nx, x imin ≤ xi → x (bsearchLoop x xi fuel imin Nx) ≤ xi := by
  intro fuel
  induction fuel with
  | zero => intro imin Nx h; exact h
  | succ n ih =>
    intro imin Nx h
    rw [bsearchLoop]
    by_cases h2 : Nx / 2 = 0
    · rw [if_pos h2]; exact h
    · rw [if_neg h2]
      by_cases h3 : x (imin + Nx / 2) ≤ xi
      · rw [if_pos h3]; exact ih _ _ h3
      · rw [if_neg h3]; exact ih _ _ h

/-- The result never leaves the live window `[imin, imin + Nx)`. -/
lemma bsearchLoop_le (x : ℕ → ℚ) (xi : ℚ) :
    ∀ fuel imin Nx, 1 ≤ Nx → bsearchLoop x xi fuel imin Nx ≤ imin + Nx - 1 := by
  intro fuel
  induction fuel with
  | zero => intro imin Nx h; show imin ≤ imin + Nx - 1; omega
  | succ n ih =>
    intro imin Nx h
    rw [bsearchLoop]
    by_cases h2 : Nx / 2 = 0
    · rw [if_pos h2]; show imin ≤ imin + Nx - 1; omega
    · rw [if_neg h2]
      by_cases h3 : x (imin + Nx / 2) ≤ xi
      · rw [if_pos h3]
        have := ih (imin + Nx / 2) (Nx - Nx / 2) (by omega)
        omega
      · rw [if_neg h3]
        have := ih imin (Nx - Nx / 2) (by omega)
        omega

/-- When the clamped guard `xi >= x[Nx0-2]` has failed, the loop cannot
return `Nx0 - 1`: reaching the window `(Nx0-2, 2)` with the right edge at
`Nx0` requires a successful test at index `Nx0 - 2`, which the failed
guard forbids.  No grid monotonicity is needed. -/
lemma bsearchLoop_le_sub2 (x : ℕ → ℚ) (xi : ℚ) (N0 : ℕ)
    (hxi : ¬ x (N0 - 2) ≤ xi) :
    ∀ fuel Nx imin, Nx ≤ fuel → 3 ≤ Nx → imin + Nx = N0 →
      bsearchLoop x xi fuel imin Nx ≤ N0 - 2 := by
  intro fuel
  induction fuel with
  | zero => intro Nx imin hf h3 _; exact (by omega : False).elim
  | succ n ih =>
    intro Nx imin hf h3 hsum
    rw [bsearchLoop]
    have h2 : ¬ Nx / 2 = 0 := by omega
    rw [if_neg h2]
    by_cases h4 : x (imin + Nx / 2) ≤ xi
    · rw [if_pos h4]
      by_cases h5 : Nx - Nx / 2 = 2
      · exfalso
        have hmid : imin + Nx / 2 = N0 - 2 := by omega
        rw [hmid] at h4
        exact hxi h4
      · exact ih (Nx - Nx / 2) (imin + Nx / 2) (by omega) (by omega) (by omega)
    · rw [if_neg h4]
      have := bsearchLoop_le x xi n imin (Nx - Nx / 2) (by omega)
      omega

/-- Upper bracket invariant: writing `U j` for
`N0 - 1 ≤ j ∨ xi < x j`, if `U` holds at the right edge of the live
window it holds one past the returned index. -/
lemma bsearchLoop_upper (x : ℕ → ℚ) (xi : ℚ) (N0 : ℕ)
    (hmono : ∀ i j, i < j → j < N0 → x i < x j) :
    ∀ fuel Nx imin, Nx ≤ fuel → 1 ≤ Nx → imin + Nx ≤ N0 →
      (N0 - 1 ≤ imin + Nx ∨ xi < x (imin + Nx)) →
      (N0 - 1 ≤ bsearchLoop x xi fuel imin Nx + 1 ∨
        xi < x (bsearchLoop x xi fuel imin Nx + 1)) := by
  intro fuel
  induction fuel with
  | zero => intro Nx imin hf h1 _ _; exact (by omega : False).elim
  | succ n ih =>
    intro Nx imin hf h1 hle hU
    rw [bsearchLoop]
    by_cases h2 : Nx / 2 = 0
    · rw [if_pos h2]
      have hNx1 : Nx = 1 := by omega
      rw [hNx1] at hU
      exact hU
    · rw [if_neg h2]
      by_cases h3 : x (imin + Nx / 2) ≤ xi
      · rw [if_pos h3]
        refine ih (Nx - Nx / 2) (imin + Nx / 2) (by omega) (by omega) (by omega) ?_
        have harith : imin + Nx / 2 + (Nx - Nx / 2) = imin + Nx := by omega
        rw [harith]
        exact hU
      · rw [if_neg h3]
        refine ih (Nx - Nx / 2) imin (by omega) (by omega) (by omega) ?_
        push_neg at h3
        by_cases h5 : N0 - 1 ≤ imin + (Nx - Nx / 2)
        · exact Or.inl h5
        · refine Or.inr ?_
          by_cases h6 : imin + (Nx - Nx / 2) = imin + Nx / 2
          · rw [h6]; exact h3
          · have hlt : imin + Nx / 2 < imin + (Nx - Nx / 2) := by omega
            exact h3.trans (hmono _ _ hlt (by omega))

/-- Bracketing property of `binary_search` on a strictly increasing grid,
for queries in the open range `(x 0, x (Nx-1))`. -/
lemma binary_search_bracket (Nx : ℕ) (x : ℕ → ℚ) (q : ℚ) (hNx : 2 ≤ Nx)
    (hmono : ∀ i j, i < j → j < Nx → x i < x j)
    (h0 : x 0 < q) (h1 : q < x (Nx - 1)) :
    x (binary_search 0 Nx x q) ≤ q ∧ q < x (binary_search 0 Nx x q + 1) ∧
      binary_search 0 Nx x q + 1 ≤ Nx - 1 := by
  rw [binary_search, if_neg (not_le.mpr h0)]
  by_cases h2 : x (Nx - 2) ≤ q
  · rw [if_pos h2]
    have hidx : Nx - 2 + 1 = Nx - 1 := by omega
    rw [hidx]
    exact ⟨h2, h1, le_refl _⟩
  · rw [if_neg h2]
    push_neg at h2
    have hlow : x (bsearchLoop x q Nx 0 Nx) ≤ q :=
      bsearchLoop_lower x q Nx 0 Nx h0.le
    have hle : bsearchLoop x q Nx 0 Nx ≤ 0 + Nx - 1 :=
      bsearchLoop_le x q Nx 0 Nx (by omega)
    have hup := bsearchLoop_upper x q Nx hmono Nx Nx 0 (le_refl _) (by omega)
      (by omega) (Or.inl (by omega))
    rcases hup with hc | hc
    · exfalso
      have hcase : bsearchLoop x q Nx 0 Nx = Nx - 2 ∨
          bsearchLoop x q Nx 0 Nx = Nx - 1 := by omega
      rcases hcase with h | h
      · rw [h] at hlow
        exact absurd hlow (not_le.mpr h2)
      · rw [h] at hlow
        have hstep : x (Nx - 2) < x (Nx - 1) := hmono _ _ (by omega) (by omega)
        exact absurd (h2.trans (hstep.trans_le hlow)) (lt_irrefl q)
    · refine ⟨hlow, hc, ?_⟩
      by_contra hcon
      have hreq : bsearchLoop x q Nx 0 Nx = Nx - 1 := by omega
      rw [hreq] at hlow
      have hstep : x (Nx - 2) < x (Nx - 1) := hmono _ _ (by omega) (by omega)
      exact absurd (h2.trans (hstep.trans_le hlow)) (lt_irrefl q)

/-- C4: for every strictly increasing grid of size `Nx ≥ 2` and every
query `q`, `binary_search(0, x, q)` terminates (it is a total function)
and returns an index `i` with `x i ≤ q < x (i+1)`, except at the clamped
boundaries: `q ≤ x 0` returns `0`, and `q ≥ x (Nx-2)` returns `Nx-2`. -/
theorem C4_binary_search_correct (Nx : ℕ) (x : ℕ → ℚ) (q : ℚ)
    (hNx : 2 ≤ Nx) (hmono : ∀ i j, i < j → j < Nx → x i < x j) :
    (q ≤ x 0 → binary_search 0 Nx x q = 0) ∧
    (x (Nx - 2) ≤ q → binary_search 0 Nx x q = Nx - 2) ∧
    (x 0 < q → q < x (Nx - 2) →
      x (binary_search 0 Nx x q) ≤ q ∧ q < x (binary_search 0 Nx x q + 1)) := by
  refine ⟨?_, ?_, ?_⟩
  · intro h; rw [binary_search, if_pos h]
  · intro h
    by_cases h0 : q ≤ x 0
    · rw [binary_search, if_pos h0]
      by_contra hc
      have h3 : 0 < Nx - 2 := by omega
      have := hmono 0 (Nx - 2) h3 (by omega)
      exact absurd (le_trans h h0) (not_le.mpr this)
    · rw [binary_search, if_neg h0, if_pos h]
  · intro ha hb
    have hb2 : q < x (Nx - 1) :=
      hb.trans_le (strictIdx_le hmono (by omega) (by omega))
    have := binary_search_bracket Nx x q hNx hmono ha hb2
    exact ⟨this.1, this.2.1⟩

/-- Witness for C4 at the grid `0,1,2,3` and query `3/2`. -/
theorem C4_binary_search_correct_witness :
    (2 ≤ 4) ∧ (∀ i j : ℕ, i < j → j < 4 → ((i : ℚ) < (j : ℚ))) ∧
    (((3 : ℚ)/2 ≤ ((0 : ℕ) : ℚ) → binary_search 0 4 (fun n => (n : ℚ)) (3/2) = 0) ∧
     (((4 - 2 : ℕ) : ℚ) ≤ 3/2 → binary_search 0 4 (fun n => (n : ℚ)) (3/2) = 4 - 2) ∧
     (((0 : ℕ) : ℚ) < 3/2 → (3 : ℚ)/2 < ((4 - 2 : ℕ) : ℚ) →
       ((binary_search 0 4 (fun n => (n : ℚ)) (3/2) : ℕ) : ℚ) ≤ 3/2 ∧
         (3 : ℚ)/2 < ((binary_search 0 4 (fun n => (n : ℚ)) (3/2) + 1 : ℕ) : ℚ))) :=
  ⟨by norm_num, fun i j h1 h2 => by exact_mod_cast h1,
    C4_binary_search_correct 4 (fun n => (n : ℚ)) (3/2) (by norm_num)
      (fun i j h1 _ => by show (i : ℚ) < (j : ℚ); exact_mod_cast h1)⟩

/-- C10: for every asset grid of size `Na ≥ 2` and every real asset
choice value (in particular values below the grid minimum or above the
grid maximum, and with no monotonicity assumption on the grid), the index
stored by `find_i_and_w` satisfies `0 ≤ i ≤ Na - 2`, so both scatter
targets `i` and `i + 1` of `simulate` are strictly below `Na`. -/
theorem C10_scatter_indices_in_bounds (Na : ℕ) (g : ℕ → ℚ) (a : Mat)
    (hNa : 2 ≤ Na) :
    ∀ e j, (find_i_and_w Na g a).1 e j ≤ Na - 2 ∧
      (find_i_and_w Na g a).1 e j + 1 < Na := by
  intro e j
  show binary_search 0 Na g (a e j) ≤ Na - 2 ∧
    binary_search 0 Na g (a e j) + 1 < Na
  have hb : binary_search 0 Na g (a e j) ≤ Na - 2 := by
    rw [binary_search]
    by_cases h0 : a e j ≤ g 0
    · rw [if_pos h0]; omega
    · rw [if_neg h0]
      by_cases h1 : g (Na - 2) ≤ a e j
      · rw [if_pos h1]
      · rw [if_neg h1]
        have hNa3 : 3 ≤ Na := by
          rcases Nat.lt_or_ge Na 3 with h | h
          · exfalso
            have e0 : Na - 2 = 0 := by omega
            rw [e0] at h1
            exact h1 (not_le.mp h0).le
          · exact h
        exact bsearchLoop_le_sub2 g (a e j) Na h1 Na Na 0 (le_refl _) hNa3 (by omega)
  exact ⟨hb, by omega⟩

/-- Witness for C10 on the grid `0,1` with an asset choice `5` above the
grid maximum. -/
theorem C10_scatter_indices_in_bounds_witness :
    (2 ≤ 2) ∧
    ((find_i_and_w 2 (fun n => (n : ℚ)) (fun _ _ => (5 : ℚ))).1 3 7 ≤ 2 - 2 ∧
      (find_i_and_w 2 (fun n => (n : ℚ)) (fun _ _ => (5 : ℚ))).1 3 7 + 1 < 2) :=
  ⟨by norm_num,
    C10_scatter_indices_in_bounds 2 (fun n => (n : ℚ)) (fun _ _ => (5 : ℚ))
      (by norm_num) 3 7⟩

/-- C5 counterexample: on the grid `0,1` (so `Na = 2`), an asset choice
of `2` — above the grid maximum — yields the weight
`(g 1 - 2)/(g 1 - g 0) = -1`, which is not in `[0,1]`.  The claim's
unrestricted quantification over every real asset choice value is
therefore false. -/
theorem C5_weight_counterexample :
    ¬ (0 ≤ (find_i_and_w 2 (fun n => (n : ℚ)) (fun _ _ => (2 : ℚ))).2 0 0 ∧
        (find_i_and_w 2 (fun n => (n : ℚ)) (fun _ _ => (2 : ℚ))).2 0 0 ≤ 1) := by
  have hbs : binary_search 0 2 (fun n => (n : ℚ)) 2 = 2 - 2 := by
    rw [binary_search]
    rw [if_neg (show ¬ ((2 : ℚ) ≤ ((0 : ℕ) : ℚ)) by norm_num)]
    rw [if_pos (show (((2 - 2 : ℕ) : ℚ) ≤ (2 : ℚ)) by norm_num)]
  intro h
  rw [show (find_i_and_w 2 (fun n => (n : ℚ)) (fun _ _ => (2 : ℚ))).2 0 0 =
      (((binary_search 0 2 (fun n => (n : ℚ)) 2 + 1 : ℕ) : ℚ) - 2) /
        (((binary_search 0 2 (fun n => (n : ℚ)) 2 + 1 : ℕ) : ℚ) -
          ((binary_search 0 2 (fun n => (n : ℚ)) 2 : ℕ) : ℚ)) from rfl,
    hbs] at h
  norm_num at h

/-- C5 (amended): for a strictly increasing grid of size `Na ≥ 2` and an
asset choice WITHIN the grid range `[g 0, g (Na-1)]`, `find_i_and_w`
returns the weight `(g (i+1) - a_)/(g (i+1) - g i)` at its stored lower
index `i`, this weight lies in `[0,1]`, and it is exactly `0` or exactly
`1` whenever the asset choice lands exactly on a grid point. -/
theorem C5_weight_formula_and_range (Na : ℕ) (g : ℕ → ℚ) (a : Mat) (e j : ℕ)
    (hNa : 2 ≤ Na) (hmono : ∀ i k, i < k → k < Na → g i < g k)
    (hlo : g 0 ≤ a e j) (hhi : a e j ≤ g (Na - 1)) :
    (find_i_and_w Na g a).2 e j =
      (g ((find_i_and_w Na g a).1 e j + 1) - a e j) /
        (g ((find_i_and_w Na g a).1 e j + 1) - g ((find_i_and_w Na g a).1 e j)) ∧
    0 ≤ (find_i_and_w Na g a).2 e j ∧ (find_i_and_w Na g a).2 e j ≤ 1 ∧
    (∀ k, k < Na → a e j = g k →
      ((find_i_and_w Na g a).2 e j = 0 ∨ (find_i_and_w Na g a).2 e j = 1)) := by
  rcases le_or_lt (a e j) (g 0) with hA | hA
  · -- clamped bottom: the in-range hypothesis forces `a e j = g 0`
    have hveq : a e j = g 0 := le_antisymm hA hlo
    have hi0 : binary_search 0 Na g (a e j) = 0 := by
      rw [binary_search, if_pos hA]
    have hd : 0 < g 1 - g 0 := sub_pos.mpr (hmono 0 1 one_pos (by omega))
    have hw1 : (find_i_and_w Na g a).2 e j = 1 := by
      show (g (binary_search 0 Na g (a e j) + 1) - a e j) /
          (g (binary_search 0 Na g (a e j) + 1) - g (binary_search 0 Na g (a e j))) = 1
      rw [hi0, hveq]
      exact div_self (ne_of_gt hd)
    refine ⟨rfl, ?_, ?_, ?_⟩
    · rw [hw1]; norm_num
    · rw [hw1]
    · intro k _ _; exact Or.inr hw1
  · rcases le_or_lt (g (Na - 2)) (a e j) with hB | hB
    · -- clamped top: `i = Na - 2`
      have hi2 : binary_search 0 Na g (a e j) = Na - 2 := by
        rw [binary_search, if_neg (not_le.mpr hA), if_pos hB]
      have hidx : Na - 2 + 1 = Na - 1 := by omega
      have hd : 0 < g (Na - 1) - g (Na - 2) :=
        sub_pos.mpr (hmono (Na - 2) (Na - 1) (by omega) (by omega))
      have hwv : (find_i_and_w Na g a).2 e j =
          (g (Na - 1) - a e j) / (g (Na - 1) - g (Na - 2)) := by
        show (g (binary_search 0 Na g (a e j) + 1) - a e j) /
            (g (binary_search 0 Na g (a e j) + 1) - g (binary_search 0 Na g (a e j))) = _
        rw [hi2, hidx]
      refine ⟨rfl, ?_, ?_, ?_⟩
      · rw [hwv]
        exact div_nonneg (sub_nonneg.mpr hhi) hd.le
      · rw [hwv, div_le_one hd]
        exact sub_le_sub_left hB _
      · intro k hk hvk
        have hk2 : Na - 2 ≤ k := by
          by_contra hc
          push_neg at hc
          have hlt := hmono k (Na - 2) hc (by omega)
          rw [← hvk] at hlt
          exact absurd hB (not_le.mpr hlt)
        rcases (by omega : k = Na - 2 ∨ k = Na - 1) with h | h
        · refine Or.inr ?_
          rw [hwv, hvk, h]
          exact div_self (ne_of_gt hd)
        · refine Or.inl ?_
          rw [hwv, hvk, h, sub_self, zero_div]
    · -- interior: the bracket property gives the bounds
      have hb2 : a e j < g (Na - 1) :=
        hB.trans_le (strictIdx_le hmono (by omega) (by omega))
      obtain ⟨hl, hu, hbd⟩ := binary_search_bracket Na g (a e j) hNa hmono hA hb2
      have hd : 0 < g (binary_search 0 Na g (a e j) + 1) -
          g (binary_search 0 Na g (a e j)) :=
        sub_pos.mpr (hmono _ _ (Nat.lt_succ_self _) (by omega))
      refine ⟨rfl, ?_, ?_, ?_⟩
      · show 0 ≤ (g (binary_search 0 Na g (a e j) + 1) - a e j) /
            (g (binary_search 0 Na g (a e j) + 1) - g (binary_search 0 Na g (a e j)))
        exact div_nonneg (sub_nonneg.mpr hu.le) hd.le
      · show (g (binary_search 0 Na g (a e j) + 1) - a e j) /
            (g (binary_search 0 Na g (a e j) + 1) - g (binary_search 0 Na g (a e j))) ≤ 1
        rw [div_le_one hd]
        exact sub_le_sub_left hl _
      · intro k hk hvk
        have hik : binary_search 0 Na g (a e j) = k := by
          have h1 : binary_search 0 Na g (a e j) ≤ k := by
            by_contra hc
            push_neg at hc
            have hlt := hmono k (binary_search 0 Na g (a e j)) hc (by omega)
            rw [← hvk] at hlt
            exact absurd hl (not_le.mpr hlt)
          have h2 : k ≤ binary_search 0 Na g (a e j) := by
            by_contra hc
            push_neg at hc
            have hle2 : g (binary_search 0 Na g (a e j) + 1) ≤ g k :=
              strictIdx_le hmono (by omega) hk
            rw [← hvk] at hle2
            exact absurd hu (not_lt.mpr hle2)
          omega
        rw [hik] at hd
        refine Or.inr ?_
        show (g (binary_search 0 Na g (a e j) + 1) - a e j) /
            (g (binary_search 0 Na g (a e j) + 1) - g (binary_search 0 Na g (a e j))) = 1
        rw [hik, hvk]
        exact div_self (ne_of_gt hd)

/-- Witness for the amended C5 on the grid `0,1` with in-range asset
choice `1/2`. -/
theorem C5_weight_formula_and_range_witness :
    (2 ≤ 2) ∧
    (((0 : ℕ) : ℚ) ≤ 1/2) ∧ ((1/2 : ℚ) ≤ ((2 - 1 : ℕ) : ℚ)) ∧
    ((find_i_and_w 2 (fun n => (n : ℚ)) (fun _ _ => (1/2 : ℚ))).2 0 0 =
      (((find_i_and_w 2 (fun n => (n : ℚ)) (fun _ _ => (1/2 : ℚ))).1 0 0 + 1 : ℕ) -
          (1/2 : ℚ)) /
        (((find_i_and_w 2 (fun n => (n : ℚ)) (fun _ _ => (1/2 : ℚ))).1 0 0 + 1 : ℕ) -
          ((find_i_and_w 2 (fun n => (n : ℚ)) (fun _ _ => (1/2 : ℚ))).1 0 0 : ℚ)) ∧
      0 ≤ (find_i_and_w 2 (fun n => (n : ℚ)) (fun _ _ => (1/2 : ℚ))).2 0 0 ∧
      (find_i_and_w 2 (fun n => (n : ℚ)) (fun _ _ => (1/2 : ℚ))).2 0 0 ≤ 1 ∧
      (∀ k : ℕ, k < 2 → (1/2 : ℚ) = (k : ℚ) →
        ((find_i_and_w 2 (fun n => (n : ℚ)) (fun _ _ => (1/2 : ℚ))).2 0 0 = 0 ∨
          (find_i_and_w 2 (fun n => (n : ℚ)) (fun _ _ => (1/2 : ℚ))).2 0 0 = 1))) :=
  ⟨by norm_num, by norm_num, by norm_num,
    C5_weight_formula_and_range 2 (fun n => (n : ℚ)) (fun _ _ => (1/2 : ℚ)) 0 0
      (by norm_num)
      (fun i k h1 _ => by show (i : ℚ) < (k : ℚ); exact_mod_cast h1)
      (by norm_num) (by norm_num)⟩

/-! ### Helper lemmas: linear interpolation -/

/-- Nonstrict value monotonicity from the strict-index form. -/
lemma monoIdx_le {y : ℕ → ℚ} {Nx : ℕ}
    (hy : ∀ i j, i < j → j < Nx → y i ≤ y j)
    {i j : ℕ} (hij : i ≤ j) (hj : j < Nx) : y i ≤ y j := by
  rcases Nat.eq_or_lt_of_le hij with h | h
  · rw [h]
  · exact hy i j h hj

/-- The affine interpolant on one bracket stays inside the value interval. -/
lemma linInterp_bounds (xa xb ya yb q : ℚ) (hab : xa < xb) (hy : ya ≤ yb)
    (h1 : xa ≤ q) (h2 : q < xb) :
    ya ≤ ya + (yb - ya) * (q - xa) / (xb - xa) ∧
      ya + (yb - ya) * (q - xa) / (xb - xa) ≤ yb := by
  have hd : 0 < xb - xa := sub_pos.mpr hab
  constructor
  · have hnn : 0 ≤ (yb - ya) * (q - xa) / (xb - xa) :=
      div_nonneg (mul_nonneg (by linarith) (by linarith)) hd.le
    linarith
  · have hkey : (yb - ya) * (q - xa) ≤ (yb - ya) * (xb - xa) :=
      mul_le_mul_of_nonneg_left (by linarith) (by linarith)
    have hq : (yb - ya) * (q - xa) / (xb - xa) ≤ yb - ya := by
      rw [div_le_iff hd]
      calc (yb - ya) * (q - xa) ≤ (yb - ya) * (xb - xa) := hkey
        _ = (yb - ya) * (xb - xa) := rfl
    linarith

/-- The affine interpolant on one bracket is monotone in the query. -/
lemma linInterp_mono (xa xb ya yb q1 q2 : ℚ) (hab : xa < xb) (hy : ya ≤ yb)
    (h12 : q1 ≤ q2) :
    ya + (yb - ya) * (q1 - xa) / (xb - xa) ≤
      ya + (yb - ya) * (q2 - xa) / (xb - xa) := by
  have hd : 0 < xb - xa := sub_pos.mpr hab
  have hkey : (yb - ya) * (q1 - xa) ≤ (yb - ya) * (q2 - xa) :=
    mul_le_mul_of_nonneg_left (by linarith) (by linarith)
  have := (div_le_div_right hd).mpr hkey
  linarith

/-- The interpolated value always lies between the first and last grid
values: flat extrapolation clamps, and interior brackets stay inside. -/
lemma interp_1d_mem (Nx : ℕ) (x y : ℕ → ℚ) (q : ℚ) (hNx : 2 ≤ Nx)
    (hx : ∀ i j, i < j → j < Nx → x i < x j)
    (hy : ∀ i j, i < j → j < Nx → y i ≤ y j) :
    y 0 ≤ interp_1d Nx x y q ∧ interp_1d Nx x y q ≤ y (Nx - 1) := by
  rw [interp_1d]
  by_cases h0 : q ≤ x 0
  · rw [if_pos h0]
    exact ⟨le_refl _, monoIdx_le hy (by omega) (by omega)⟩
  · rw [if_neg h0]
    by_cases h1 : x (Nx - 1) ≤ q
    · rw [if_pos h1]
      exact ⟨monoIdx_le hy (by omega) (by omega), le_refl _⟩
    · rw [if_neg h1]
      push_neg at h0 h1
      obtain ⟨hl, hu, hbd⟩ := binary_search_bracket Nx x q hNx hx h0 h1
      have hab : x (binary_search 0 Nx x q) < x (binary_search 0 Nx x q + 1) :=
        hx _ _ (Nat.lt_succ_self _) (by omega)
      have hyy : y (binary_search 0 Nx x q) ≤ y (binary_search 0 Nx x q + 1) :=
        hy _ _ (Nat.lt_succ_self _) (by omega)
      obtain ⟨hA, hB⟩ := linInterp_bounds _ _ _ _ q hab hyy hl hu
      exact ⟨le_trans (monoIdx_le hy (Nat.zero_le _) (by omega)) hA,
        le_trans hB (monoIdx_le hy (by omega) (by omega))⟩

/-- The interpolated value is monotone nondecreasing in the query. -/
lemma interp_1d_mono (Nx : ℕ) (x y : ℕ → ℚ) (q1 q2 : ℚ) (hNx : 2 ≤ Nx)
    (hx : ∀ i j, i < j → j < Nx → x i < x j)
    (hy : ∀ i j, i < j → j < Nx → y i ≤ y j)
    (h12 : q1 ≤ q2) :
    interp_1d Nx x y q1 ≤ interp_1d Nx x y q2 := by
  by_cases hA : q1 ≤ x 0
  · have e1 : interp_1d Nx x y q1 = y 0 := by rw [interp_1d, if_pos hA]
    rw [e1]
    exact (interp_1d_mem Nx x y q2 hNx hx hy).1
  · by_cases hB : x (Nx - 1) ≤ q2
    · have hB0 : ¬ q2 ≤ x 0 := by
        intro hc
        push_neg at hA
        have hlt : x 0 < x (Nx - 1) := hx 0 (Nx - 1) (by omega) (by omega)
        linarith
      have e2 : interp_1d Nx x y q2 = y (Nx - 1) := by
        rw [interp_1d, if_neg hB0, if_pos hB]
      rw [e2]
      exact (interp_1d_mem Nx x y q1 hNx hx hy).2
    · have hA2 : ¬ q2 ≤ x 0 := fun hc => hA (h12.trans hc)
      have hB1 : ¬ x (Nx - 1) ≤ q1 := fun hc => hB (hc.trans h12)
      have e1 : interp_1d Nx x y q1 =
          y (binary_search 0 Nx x q1) +
            (y (binary_search 0 Nx x q1 + 1) - y (binary_search 0 Nx x q1)) *
              (q1 - x (binary_search 0 Nx x q1)) /
                (x (binary_search 0 Nx x q1 + 1) - x (binary_search 0 Nx x q1)) := by
        rw [interp_1d, if_neg hA, if_neg hB1]
      have e2 : interp_1d Nx x y q2 =
          y (binary_search 0 Nx x q2) +
            (y (binary_search 0 Nx x q2 + 1) - y (binary_search 0 Nx x q2)) *
              (q2 - x (binary_search 0 Nx x q2)) /
                (x (binary_search 0 Nx x q2 + 1) - x (binary_search 0 Nx x q2)) := by
        rw [interp_1d, if_neg hA2, if_neg hB]
      push_neg at hA hA2 hB hB1
      obtain ⟨hl1, hu1, hbd1⟩ := binary_search_bracket Nx x q1 hNx hx hA hB1
      obtain ⟨hl2, hu2, hbd2⟩ := binary_search_bracket Nx x q2 hNx hx hA2 hB
      rw [e1, e2]
      have hii : binary_search 0 Nx x q1 ≤ binary_search 0 Nx x q2 := by
        by_contra hc
        push_neg at hc
        have hle2 : x (binary_search 0 Nx x q2 + 1) ≤ x (binary_search 0 Nx x q1) :=
          strictIdx_le hx (by omega) (by omega)
        linarith
      rcases Nat.eq_or_lt_of_le hii with he | hlt
      · rw [← he]
        exact linInterp_mono _ _ _ _ q1 q2
          (hx _ _ (Nat.lt_succ_self _) (by omega))
          (hy _ _ (Nat.lt_succ_self _) (by omega)) h12
      · have hab1 : x (binary_search 0 Nx x q1) < x (binary_search 0 Nx x q1 + 1) :=
          hx _ _ (Nat.lt_succ_self _) (by omega)
        have hyy1 : y (binary_search 0 Nx x q1) ≤ y (binary_search 0 Nx x q1 + 1) :=
          hy _ _ (Nat.lt_succ_self _) (by omega)
        have hab2 : x (binary_search 0 Nx x q2) < x (binary_search 0 Nx x q2 + 1) :=
          hx _ _ (Nat.lt_succ_self _) (by omega)
        have hyy2 : y (binary_search 0 Nx x q2) ≤ y (binary_search 0 Nx x q2 + 1) :=
          hy _ _ (Nat.lt_succ_self _) (by omega)
        have hv1 := (linInterp_bounds _ _ _ _ q1 hab1 hyy1 hl1 hu1).2
        have hv2 := (linInterp_bounds _ _ _ _ q2 hab2 hyy2 hl2 hu2).1
        have hmid : y (binary_search 0 Nx x q1 + 1) ≤ y (binary_search 0 Nx x q2) :=
          monoIdx_le hy (by omega) (by omega)
        linarith

/-- C6: after every application of the EGM step, the asset policy is
nonnegative at EVERY cell (not only at index 0 where the explicit clamp
acts): with the spec-modelled flat-extrapolation interpolation, every
interpolated value lies between `g 0 = 0` and `g (Na-1)`, provided the
asset grid is strictly increasing, starts at the borrowing constraint
`g 0 = 0`, and the endogenous cash-on-hand grid is strictly increasing
(the precondition of the monotone interpolation primitive). -/
theorem C6_assets_nonneg (Ne Na : ℕ) (beta : ℚ) (upInv upNeg : ℚ → ℚ)
    (e_trans : Mat) (g : ℕ → ℚ) (r w : ℚ) (Va_p m : Mat)
    (hNa : 2 ≤ Na)
    (hg : ∀ i j, i < j → j < Na → g i < g j)
    (hg0 : g 0 = 0)
    (hme : ∀ e, e < Ne → ∀ i j, i < j → j < Na →
      m_endo upInv g (margUplus Ne beta e_trans Va_p) e i <
        m_endo upInv g (margUplus Ne beta e_trans Va_p) e j) :
    ∀ e, e < Ne → ∀ j, j < Na →
      0 ≤ (time_iteration Ne Na beta upInv upNeg e_trans g r w Va_p m).1 e j := by
  intro e he j hj
  show 0 ≤ clampRow
    (assetRow Na g (m_endo upInv g (margUplus Ne beta e_trans Va_p) e) (m e)) j
  simp only [clampRow, assetRow]
  by_cases hj0 : j = 0
  · rw [if_pos hj0]
    exact le_max_right _ _
  · rw [if_neg hj0]
    have hnn := (interp_1d_mem Na
      (m_endo upInv g (margUplus Ne beta e_trans Va_p) e) g (m e j) hNa
      (hme e he) (fun i k hik hk => (hg i k hik hk).le)).1
    rw [hg0] at hnn
    exact hnn

/-- Witness for C6 with `Ne = 1`, `Na = 2`, grid `0,1`, constant power
kernels. -/
theorem C6_assets_nonneg_witness :
    (2 ≤ 2) ∧
    (∀ i j : ℕ, i < j → j < 2 → ((i : ℚ) < (j : ℚ))) ∧
    (((0 : ℕ) : ℚ) = 0) ∧
    (∀ e, e < 1 → ∀ i j : ℕ, i < j → j < 2 →
      m_endo (fun _ => (1 : ℚ)) (fun n => (n : ℚ))
        (margUplus 1 1 (fun _ _ => 1) (fun _ _ => 1)) e i <
      m_endo (fun _ => (1 : ℚ)) (fun n => (n : ℚ))
        (margUplus 1 1 (fun _ _ => 1) (fun _ _ => 1)) e j) ∧
    0 ≤ (time_iteration 1 2 1 (fun _ => (1 : ℚ)) (fun x => x) (fun _ _ => 1)
      (fun n => (n : ℚ)) 0 0 (fun _ _ => 1) (fun _ _ => 0)).1 0 0 :=
  ⟨by norm_num,
    fun i j h1 _ => by show (i : ℚ) < (j : ℚ); exact_mod_cast h1,
    by norm_num,
    fun e _ i j h1 _ => by
      show (1 : ℚ) + (i : ℚ) < 1 + (j : ℚ)
      have hc : (i : ℚ) < (j : ℚ) := by exact_mod_cast h1
      linarith,
    C6_assets_nonneg 1 2 1 (fun _ => (1 : ℚ)) (fun x => x) (fun _ _ => 1)
      (fun n => (n : ℚ)) 0 0 (fun _ _ => 1) (fun _ _ => 0)
      (by norm_num)
      (fun i j h1 _ => by show (i : ℚ) < (j : ℚ); exact_mod_cast h1)
      (by norm_num)
      (fun e _ i j h1 _ => by
        show (1 : ℚ) + (i : ℚ) < 1 + (j : ℚ)
        have hc : (i : ℚ) < (j : ℚ) := by exact_mod_cast h1
        linarith)
      0 (by norm_num) 0 (by norm_num)⟩

/-- C7: the budget identity `consumption + assets = cashOnHand` holds
exactly at every cell, by construction of the EGM step (`c = m - a` is
computed after the clamp). -/
theorem C7_budget_identity (Ne Na : ℕ) (beta : ℚ) (upInv upNeg : ℚ → ℚ)
    (e_trans : Mat) (g : ℕ → ℚ) (r w : ℚ) (Va_p m : Mat) (e j : ℕ) :
    (time_iteration Ne Na beta upInv upNeg e_trans g r w Va_p m).2.1 e j +
      (time_iteration Ne Na beta upInv upNeg e_trans g r w Va_p m).1 e j =
      m e j := by
  show m e j - clampRow
      (assetRow Na g (m_endo upInv g (margUplus Ne beta e_trans Va_p) e) (m e)) j +
    clampRow
      (assetRow Na g (m_endo upInv g (margUplus Ne beta e_trans Va_p) e) (m e)) j =
    m e j
  ring

/-- C8: for fixed income state, the interpolated asset policy is
nondecreasing in cash-on-hand, under the data-model grid invariants and
a monotone endogenous grid (the claim's stated premise). -/
theorem C8_assets_monotone (Ne Na : ℕ) (beta : ℚ) (upInv upNeg : ℚ → ℚ)
    (e_trans : Mat) (g : ℕ → ℚ) (r w : ℚ) (Va_p m : Mat)
    (hNa : 2 ≤ Na)
    (hg : ∀ i j, i < j → j < Na → g i < g j)
    (hg0 : g 0 = 0)
    (hme : ∀ e, e < Ne → ∀ i j, i < j → j < Na →
      m_endo upInv g (margUplus Ne beta e_trans Va_p) e i <
        m_endo upInv g (margUplus Ne beta e_trans Va_p) e j)
    (e : ℕ) (he : e < Ne) (a1 a2 : ℕ) (h1 : a1 < Na) (h2 : a2 < Na)
    (hm : m e a1 ≤ m e a2) :
    (time_iteration Ne Na beta upInv upNeg e_trans g r w Va_p m).1 e a1 ≤
      (time_iteration Ne Na beta upInv upNeg e_trans g r w Va_p m).1 e a2 := by
  have hyg : ∀ i j, i < j → j < Na → g i ≤ g j := fun i j hij hj => (hg i j hij hj).le
  show clampRow
      (assetRow Na g (m_endo upInv g (margUplus Ne beta e_trans Va_p) e) (m e)) a1 ≤
    clampRow
      (assetRow Na g (m_endo upInv g (margUplus Ne beta e_trans Va_p) e) (m e)) a2
  simp only [clampRow, assetRow]
  by_cases e1 : a1 = 0 <;> by_cases e2 : a2 = 0
  · rw [if_pos e1, if_pos e2]
  · rw [if_pos e1, if_neg e2]
    rw [e1] at hm
    refine max_le (interp_1d_mono Na _ g _ _ hNa (hme e he) hyg hm) ?_
    have hnn := (interp_1d_mem Na
      (m_endo upInv g (margUplus Ne beta e_trans Va_p) e) g (m e a2) hNa
      (hme e he) hyg).1
    rw [hg0] at hnn
    exact hnn
  · rw [if_neg e1, if_pos e2]
    rw [e2] at hm
    exact le_max_of_le_left (interp_1d_mono Na _ g _ _ hNa (hme e he) hyg hm)
  · rw [if_neg e1, if_neg e2]
    exact interp_1d_mono Na _ g _ _ hNa (hme e he) hyg hm

/-- Witness for C8 at the same concrete model as C6, comparing cells
`a1 = 0` and `a2 = 1` with `m` given by the asset grid itself. -/
theorem C8_assets_monotone_witness :
    (2 ≤ 2) ∧
    (∀ i j : ℕ, i < j → j < 2 → ((i : ℚ) < (j : ℚ))) ∧
    (((0 : ℕ) : ℚ) = 0) ∧
    (∀ e, e < 1 → ∀ i j : ℕ, i < j → j < 2 →
      m_endo (fun _ => (1 : ℚ)) (fun n => (n : ℚ))
        (margUplus 1 1 (fun _ _ => 1) (fun _ _ => 1)) e i <
      m_endo (fun _ => (1 : ℚ)) (fun n => (n : ℚ))
        (margUplus 1 1 (fun _ _ => 1) (fun _ _ => 1)) e j) ∧
    ((fun (_ : ℕ) (j : ℕ) => (j : ℚ)) 0 0 ≤ (fun (_ : ℕ) (j : ℕ) => (j : ℚ)) 0 1) ∧
    (time_iteration 1 2 1 (fun _ => (1 : ℚ)) (fun x => x) (fun _ _ => 1)
        (fun n => (n : ℚ)) 0 0 (fun _ _ => 1) (fun _ j => (j : ℚ))).1 0 0 ≤
      (time_iteration 1 2 1 (fun _ => (1 : ℚ)) (fun x => x) (fun _ _ => 1)
        (fun n => (n : ℚ)) 0 0 (fun _ _ => 1) (fun _ j => (j : ℚ))).1 0 1 :=
  ⟨by norm_num,
    fun i j h1 _ => by show (i : ℚ) < (j : ℚ); exact_mod_cast h1,
    by norm_num,
    fun e _ i j h1 _ => by
      show (1 : ℚ) + (i : ℚ) < 1 + (j : ℚ)
      have hc : (i : ℚ) < (j : ℚ) := by exact_mod_cast h1
      linarith,
    by norm_num,
    C8_assets_monotone 1 2 1 (fun _ => (1 : ℚ)) (fun x => x) (fun _ _ => 1)
      (fun n => (n : ℚ)) 0 0 (fun _ _ => 1) (fun _ j => (j : ℚ))
      (by norm_num)
      (fun i j h1 _ => by show (i : ℚ) < (j : ℚ); exact_mod_cast h1)
      (by norm_num)
      (fun e _ i j h1 _ => by
        show (1 : ℚ) + (i : ℚ) < 1 + (j : ℚ)
        have hc : (i : ℚ) < (j : ℚ) := by exact_mod_cast h1
        linarith)
      0 (by norm_num) 0 1 (by norm_num) (by norm_num)
      (by show ((0 : ℕ) : ℚ) ≤ ((1 : ℕ) : ℚ); norm_num)⟩

/-- C2: the single EGM step computes exactly the spec's formulas:
`marg_u_plus = beta · (transition @ Va_p)`, `c_endo = marg_u_plus^(-1/σ)`
(abstract kernel `upInv`), `m_endo = c_endo + assetGrid`, `assets` by 1-D
interpolation of `m[e,:]` against the `(m_endo, assetGrid)` pairs,
`consumption = m - assets`, and `Va = (1+r) · consumption^(-σ)` (abstract
kernel `upNeg`).  Under the data-model grid invariants and a monotone
endogenous grid, the borrowing-constraint clamp at index 0 is a no-op, so
the computed arrays agree with the spec composition at every cell. -/
theorem C2_time_iteration_formulas (Ne Na : ℕ) (beta : ℚ) (upInv upNeg : ℚ → ℚ)
    (e_trans : Mat) (g : ℕ → ℚ) (r w : ℚ) (Va_p m : Mat)
    (hNa : 2 ≤ Na)
    (hg : ∀ i j, i < j → j < Na → g i < g j)
    (hg0 : g 0 = 0)
    (hme : ∀ e, e < Ne → ∀ i j, i < j → j < Na →
      m_endo upInv g (margUplus Ne beta e_trans Va_p) e i <
        m_endo upInv g (margUplus Ne beta e_trans Va_p) e j) :
    ∀ e, e < Ne → ∀ j, j < Na →
      (time_iteration Ne Na beta upInv upNeg e_trans g r w Va_p m).1 e j =
        assets_spec Ne Na beta upInv e_trans Va_p g m e j ∧
      (time_iteration Ne Na beta upInv upNeg e_trans g r w Va_p m).2.1 e j =
        consumption_spec Ne Na beta upInv e_trans Va_p g m e j ∧
      (time_iteration Ne Na beta upInv upNeg e_trans g r w Va_p m).2.2 e j =
        Va_spec Ne Na beta upInv upNeg e_trans Va_p g r m e j := by
  intro e he j hj
  have hgrid : m_endo upInv g (margUplus Ne beta e_trans Va_p) e =
      fun k => m_endo_spec Ne beta upInv e_trans Va_p g e k := by
    funext k
    show upInv (margUplus Ne beta e_trans Va_p e k) + g k =
      upInv (marg_u_plus_spec Ne beta e_trans Va_p e k) + g k
    have hmarg : margUplus Ne beta e_trans Va_p e k =
        marg_u_plus_spec Ne beta e_trans Va_p e k := by
      show (∑ t ∈ Finset.range Ne, beta * e_trans e t * Va_p t k) =
        beta * ∑ t ∈ Finset.range Ne, e_trans e t * Va_p t k
      rw [Finset.mul_sum]
      exact Finset.sum_congr rfl (fun t _ => by ring)
    rw [hmarg]
  have hassets :
      (time_iteration Ne Na beta upInv upNeg e_trans g r w Va_p m).1 e j =
        assets_spec Ne Na beta upInv e_trans Va_p g m e j := by
    show clampRow
        (assetRow Na g (m_endo upInv g (margUplus Ne beta e_trans Va_p) e) (m e)) j =
      interp_1d Na (fun k => m_endo_spec Ne beta upInv e_trans Va_p g e k) g (m e j)
    simp only [clampRow, assetRow]
    by_cases hj0 : j = 0
    · rw [if_pos hj0, hj0]
      have hnn := (interp_1d_mem Na
        (m_endo upInv g (margUplus Ne beta e_trans Va_p) e) g (m e 0) hNa
        (hme e he) (fun i k hik hk => (hg i k hik hk).le)).1
      rw [hg0] at hnn
      rw [max_eq_left hnn, hgrid]
    · rw [if_neg hj0, hgrid]
  refine ⟨hassets, ?_, ?_⟩
  · show m e j -
        clampRow
          (assetRow Na g (m_endo upInv g (margUplus Ne beta e_trans Va_p) e) (m e)) j =
      m e j - assets_spec Ne Na beta upInv e_trans Va_p g m e j
    rw [show clampRow
        (assetRow Na g (m_endo upInv g (margUplus Ne beta e_trans Va_p) e) (m e)) j =
      (time_iteration Ne Na beta upInv upNeg e_trans g r w Va_p m).1 e j from rfl,
      hassets]
  · show (1 + r) * upNeg
        ((time_iteration Ne Na beta upInv upNeg e_trans g r w Va_p m).2.1 e j) =
      (1 + r) * upNeg (consumption_spec Ne Na beta upInv e_trans Va_p g m e j)
    rw [show (time_iteration Ne Na beta upInv upNeg e_trans g r w Va_p m).2.1 e j =
        m e j - (time_iteration Ne Na beta upInv upNeg e_trans g r w Va_p m).1 e j
        from rfl, hassets]
    rfl

/-- Witness for C2 at the C6 concrete model, cell `(0,0)`. -/
theorem C2_time_iteration_formulas_witness :
    (2 ≤ 2) ∧
    (∀ i j : ℕ, i < j → j < 2 → ((i : ℚ) < (j : ℚ))) ∧
    (((0 : ℕ) : ℚ) = 0) ∧
    (∀ e, e < 1 → ∀ i j : ℕ, i < j → j < 2 →
      m_endo (fun _ => (1 : ℚ)) (fun n => (n : ℚ))
        (margUplus 1 1 (fun _ _ => 1) (fun _ _ => 1)) e i <
      m_endo (fun _ => (1 : ℚ)) (fun n => (n : ℚ))
        (margUplus 1 1 (fun _ _ => 1) (fun _ _ => 1)) e j) ∧
    ((time_iteration 1 2 1 (fun _ => (1 : ℚ)) (fun x => x) (fun _ _ => 1)
        (fun n => (n : ℚ)) 0 0 (fun _ _ => 1) (fun _ _ => 0)).1 0 0 =
      assets_spec 1 2 1 (fun _ => (1 : ℚ)) (fun _ _ => 1) (fun _ _ => 1)
        (fun n => (n : ℚ)) (fun _ _ => 0) 0 0 ∧
     (time_iteration 1 2 1 (fun _ => (1 : ℚ)) (fun x => x) (fun _ _ => 1)
        (fun n => (n : ℚ)) 0 0 (fun _ _ => 1) (fun _ _ => 0)).2.1 0 0 =
      consumption_spec 1 2 1 (fun _ => (1 : ℚ)) (fun _ _ => 1) (fun _ _ => 1)
        (fun n => (n : ℚ)) (fun _ _ => 0) 0 0 ∧
     (time_iteration 1 2 1 (fun _ => (1 : ℚ)) (fun x => x) (fun _ _ => 1)
        (fun n => (n : ℚ)) 0 0 (fun _ _ => 1) (fun _ _ => 0)).2.2 0 0 =
      Va_spec 1 2 1 (fun _ => (1 : ℚ)) (fun x => x) (fun _ _ => 1) (fun _ _ => 1)
        (fun n => (n : ℚ)) 0 (fun _ _ => 0) 0 0) :=
  ⟨by norm_num,
    fun i j h1 _ => by show (i : ℚ) < (j : ℚ); exact_mod_cast h1,
    by norm_num,
    fun e _ i j h1 _ => by
      show (1 : ℚ) + (i : ℚ) < 1 + (j : ℚ)
      have hc : (i : ℚ) < (j : ℚ) := by exact_mod_cast h1
      linarith,
    C2_time_iteration_formulas 1 2 1 (fun _ => (1 : ℚ)) (fun x => x) (fun _ _ => 1)
      (fun n => (n : ℚ)) 0 0 (fun _ _ => 1) (fun _ _ => 0)
      (by norm_num)
      (fun i j h1 _ => by show (i : ℚ) < (j : ℚ); exact_mod_cast h1)
      (by norm_num)
      (fun e _ i j h1 _ => by
        show (1 : ℚ) + (i : ℚ) < 1 + (j : ℚ)
        have hc : (i : ℚ) < (j : ℚ) := by exact_mod_cast h1
        linarith)
      0 (by norm_num) 0 (by norm_num)⟩

/-! ### Helper lemmas: the scatter-add and mass conservation -/

lemma addAt_apply (M : Mat) (e j : ℕ) (v : ℚ) (e2 j2 : ℕ) :
    addAt M e j v e2 j2 =
      M e2 j2 + (if e2 = e then (if j2 = j then v else 0) else 0) := by
  show (if e2 = e ∧ j2 = j then M e2 j2 + v else M e2 j2) = _
  by_cases h1 : e2 = e <;> by_cases h2 : j2 = j <;> simp [h1, h2]

lemma addAt_nonneg (M : Mat) (e j : ℕ) (v : ℚ)
    (hM : ∀ a b, 0 ≤ M a b) (hv : 0 ≤ v) : ∀ a b, 0 ≤ addAt M e j v a b := by
  intro a b
  rw [addAt_apply]
  have h := hM a b
  split_ifs <;> linarith

lemma totalMass_addAt (Ne Na : ℕ) (M : Mat) {e j : ℕ}
    (he : e < Ne) (hj : j < Na) (v : ℚ) :
    totalMass Ne Na (addAt M e j v) = totalMass Ne Na M + v := by
  unfold totalMass
  have hpt : ∀ e2, ∑ j2 ∈ Finset.range Na, addAt M e j v e2 j2 =
      (∑ j2 ∈ Finset.range Na, M e2 j2) + (if e2 = e then v else 0) := by
    intro e2
    by_cases h1 : e2 = e
    · subst h1
      rw [if_pos rfl]
      have hrow : ∀ j2 ∈ Finset.range Na,
          addAt M e2 j v e2 j2 = M e2 j2 + (if j2 = j then v else 0) :=
        fun j2 _ => by rw [addAt_apply, if_pos rfl]
      rw [Finset.sum_congr rfl hrow, Finset.sum_add_distrib,
        Finset.sum_ite_eq' (Finset.range Na) j (fun _ => v),
        if_pos (Finset.mem_range.mpr hj)]
    · rw [if_neg h1, add_zero]
      refine Finset.sum_congr rfl (fun j2 _ => ?_)
      rw [addAt_apply, if_neg h1, add_zero]
  rw [Finset.sum_congr rfl (fun e2 _ => hpt e2), Finset.sum_add_distrib,
    Finset.sum_ite_eq' (Finset.range Ne) e (fun _ => v),
    if_pos (Finset.mem_range.mpr he)]

lemma foldl_scatter_nonneg (idx : ℕ → ℕ → ℕ) (wgt D : Mat) :
    ∀ (l : List (ℕ × ℕ)) (M : Mat), (∀ a b, 0 ≤ M a b) →
      (∀ p ∈ l, 0 ≤ D p.1 p.2 ∧ 0 ≤ wgt p.1 p.2 ∧ wgt p.1 p.2 ≤ 1) →
      ∀ a b, 0 ≤ List.foldl (scatterStep idx wgt D) M l a b := by
  intro l
  induction l with
  | nil => intro M hM _ a b; exact hM a b
  | cons p t ih =>
    intro M hM hl a b
    rw [List.foldl_cons]
    obtain ⟨hD, hw0, hw1⟩ := hl p (List.mem_cons_self p t)
    refine ih _ ?_ (fun q hq => hl q (List.mem_cons_of_mem p hq)) a b
    exact addAt_nonneg _ _ _ _
      (addAt_nonneg _ _ _ _ hM (mul_nonneg hD hw0))
      (mul_nonneg hD (by linarith))

lemma foldl_scatter_mass (Ne Na : ℕ) (idx : ℕ → ℕ → ℕ) (wgt D : Mat) :
    ∀ (l : List (ℕ × ℕ)) (M : Mat),
      (∀ p ∈ l, p.1 < Ne ∧ idx p.1 p.2 + 1 < Na) →
      totalMass Ne Na (List.foldl (scatterStep idx wgt D) M l) =
        totalMass Ne Na M + (l.map (fun p => D p.1 p.2)).sum := by
  intro l
  induction l with
  | nil => intro M _; simp
  | cons p t ih =>
    intro M hl
    rw [List.foldl_cons, ih _ (fun q hq => hl q (List.mem_cons_of_mem p hq))]
    obtain ⟨hp1, hp2⟩ := hl p (List.mem_cons_self p t)
    have hstep : totalMass Ne Na (scatterStep idx wgt D M p) =
        totalMass Ne Na M + D p.1 p.2 := by
      show totalMass Ne Na
          (addAt (addAt M p.1 (idx p.1 p.2) (D p.1 p.2 * wgt p.1 p.2))
            p.1 (idx p.1 p.2 + 1) (D p.1 p.2 * (1 - wgt p.1 p.2))) = _
      rw [totalMass_addAt Ne Na _ hp1 (by omega) _,
        totalMass_addAt Ne Na _ hp1 (by omega) _]
      ring
    rw [hstep, List.map_cons, List.sum_cons]
    ring

lemma mem_cellList (Ne Na : ℕ) (p : ℕ × ℕ) :
    p ∈ cellList Ne Na ↔ p.1 < Ne ∧ p.2 < Na := by
  constructor
  · intro h
    obtain ⟨a, ha, h2⟩ := List.mem_flatMap.mp h
    obtain ⟨b, hb, h3⟩ := List.mem_map.mp h2
    rw [← h3]
    exact ⟨List.mem_range.mp ha, List.mem_range.mp hb⟩
  · intro hp
    refine List.mem_flatMap.mpr ⟨p.1, List.mem_range.mpr hp.1, ?_⟩
    exact List.mem_map.mpr ⟨p.2, List.mem_range.mpr hp.2, rfl⟩

lemma list_range_map_sum (n : ℕ) (f : ℕ → ℚ) :
    ((List.range n).map f).sum = ∑ i ∈ Finset.range n, f i := by
  induction n with
  | zero => simp
  | succ k ih =>
    rw [List.range_succ, List.map_append, List.sum_append,
      Finset.sum_range_succ, ih]
    simp

lemma cellList_map_sum (Ne Na : ℕ) (f : ℕ → ℕ → ℚ) :
    ((cellList Ne Na).map (fun p => f p.1 p.2)).sum =
      ∑ e ∈ Finset.range Ne, ∑ j ∈ Finset.range Na, f e j := by
  induction Ne with
  | zero => simp [cellList]
  | succ k ih =>
    have hsplit : cellList (k + 1) Na =
        cellList k Na ++ (List.range Na).map (fun a => (k, a)) := by
      unfold cellList
      rw [List.range_succ, List.flatMap_append]
      simp
    rw [hsplit, List.map_append, List.sum_append, ih, Finset.sum_range_succ]
    congr 1
    rw [List.map_map]
    exact list_range_map_sum Na (fun a => f k a)

/-- C1: one forward step of the propagator (`simulate`: scatter-add of
each cell's mass onto its two bracketing grid indices, then
multiplication by the transposed transition matrix) maps a valid
probability mass, a weight set with weights in `[0,1]` and in-bounds
bracketing indices, and a row-stochastic transition matrix, to an array
that is entrywise nonnegative and sums exactly to 1 — with no
renormalization anywhere in the computation. -/
theorem C1_advance_mass_conservation (Ne Na : ℕ) (e_trans : Mat)
    (idx : ℕ → ℕ → ℕ) (wgt D : Mat)
    (hD0 : ∀ e, e < Ne → ∀ j, j < Na → 0 ≤ D e j)
    (hD1 : totalMass Ne Na D = 1)
    (hw : ∀ e, e < Ne → ∀ j, j < Na → 0 ≤ wgt e j ∧ wgt e j ≤ 1)
    (hidx : ∀ e, e < Ne → ∀ j, j < Na → idx e j + 1 < Na)
    (ht0 : ∀ e, e < Ne → ∀ k, k < Ne → 0 ≤ e_trans e k)
    (ht1 : ∀ e, e < Ne → ∑ k ∈ Finset.range Ne, e_trans e k = 1) :
    (∀ e, e < Ne → ∀ j, j < Na →
      0 ≤ simulate Ne Na (fun i j => e_trans j i) idx wgt D e j) ∧
    totalMass Ne Na (simulate Ne Na (fun i j => e_trans j i) idx wgt D) = 1 := by
  have hcells : ∀ p ∈ cellList Ne Na,
      0 ≤ D p.1 p.2 ∧ 0 ≤ wgt p.1 p.2 ∧ wgt p.1 p.2 ≤ 1 := by
    intro p hp
    obtain ⟨h1, h2⟩ := (mem_cellList Ne Na p).mp hp
    exact ⟨hD0 _ h1 _ h2, (hw _ h1 _ h2).1, (hw _ h1 _ h2).2⟩
  have hsc_nn : ∀ a b, 0 ≤ scatter Ne Na idx wgt D a b :=
    foldl_scatter_nonneg idx wgt D (cellList Ne Na) (fun _ _ => 0)
      (fun _ _ => le_refl 0) hcells
  have hsc_mass : totalMass Ne Na (scatter Ne Na idx wgt D) = 1 := by
    have hb : ∀ p ∈ cellList Ne Na, p.1 < Ne ∧ idx p.1 p.2 + 1 < Na := by
      intro p hp
      obtain ⟨h1, h2⟩ := (mem_cellList Ne Na p).mp hp
      exact ⟨h1, hidx _ h1 _ h2⟩
    show totalMass Ne Na
      (List.foldl (scatterStep idx wgt D) (fun _ _ => 0) (cellList Ne Na)) = 1
    rw [foldl_scatter_mass Ne Na idx wgt D (cellList Ne Na) (fun _ _ => 0) hb,
      cellList_map_sum]
    show totalMass Ne Na (fun _ _ => 0) + totalMass Ne Na D = 1
    rw [hD1]
    simp [totalMass]
  constructor
  · intro e he j hj
    show 0 ≤ ∑ k ∈ Finset.range Ne, e_trans k e * scatter Ne Na idx wgt D k j
    refine Finset.sum_nonneg (fun k hk => ?_)
    exact mul_nonneg (ht0 k (Finset.mem_range.mp hk) e he) (hsc_nn k j)
  · show totalMass Ne Na
      (fun e j => ∑ k ∈ Finset.range Ne,
        e_trans k e * scatter Ne Na idx wgt D k j) = 1
    unfold totalMass
    have h1 : ∀ e, ∑ j ∈ Finset.range Na, ∑ k ∈ Finset.range Ne,
        e_trans k e * scatter Ne Na idx wgt D k j =
        ∑ k ∈ Finset.range Ne,
          e_trans k e * ∑ j ∈ Finset.range Na, scatter Ne Na idx wgt D k j := by
      intro e
      rw [Finset.sum_comm]
      exact Finset.sum_congr rfl (fun k _ => (Finset.mul_sum _ _ _).symm)
    rw [Finset.sum_congr rfl (fun e _ => h1 e), Finset.sum_comm]
    have h2 : ∀ k, ∑ e ∈ Finset.range Ne,
        e_trans k e * (∑ j ∈ Finset.range Na, scatter Ne Na idx wgt D k j) =
        (∑ e ∈ Finset.range Ne, e_trans k e) *
          (∑ j ∈ Finset.range Na, scatter Ne Na idx wgt D k j) :=
      fun k => (Finset.sum_mul _ _ _).symm
    rw [Finset.sum_congr rfl (fun k _ => h2 k)]
    have h3 : ∀ k ∈ Finset.range Ne,
        (∑ e ∈ Finset.range Ne, e_trans k e) *
          (∑ j ∈ Finset.range Na, scatter Ne Na idx wgt D k j) =
        ∑ j ∈ Finset.range Na, scatter Ne Na idx wgt D k j := by
      intro k hk
      rw [ht1 k (Finset.mem_range.mp hk), one_mul]
    rw [Finset.sum_congr rfl h3]
    exact hsc_mass

/-- Witness for C1 with `Ne = 1`, `Na = 2`, point mass at cell `(0,0)`,
weights `1/2`, indices `0`, transition `[[1]]`. -/
theorem C1_advance_mass_conservation_witness :
    (∀ e, e < 1 → ∀ j, j < 2 →
      (0 : ℚ) ≤ (fun (_ j : ℕ) => if j = 0 then (1 : ℚ) else 0) e j) ∧
    totalMass 1 2 (fun _ j => if j = 0 then (1 : ℚ) else 0) = 1 ∧
    (∀ e, e < 1 → ∀ j, j < 2 →
      (0 : ℚ) ≤ (fun (_ _ : ℕ) => (1/2 : ℚ)) e j ∧
        (fun (_ _ : ℕ) => (1/2 : ℚ)) e j ≤ 1) ∧
    (∀ e, e < 1 → ∀ j, j < 2 → (fun (_ _ : ℕ) => (0 : ℕ)) e j + 1 < 2) ∧
    (∀ e, e < 1 → ∀ k, k < 1 → (0 : ℚ) ≤ (fun (_ _ : ℕ) => (1 : ℚ)) e k) ∧
    (∀ e, e < 1 → ∑ k ∈ Finset.range 1, (fun (_ _ : ℕ) => (1 : ℚ)) e k = 1) ∧
    ((∀ e, e < 1 → ∀ j, j < 2 →
      0 ≤ simulate 1 2 (fun i j => (fun (_ _ : ℕ) => (1 : ℚ)) j i)
        (fun _ _ => 0) (fun _ _ => 1/2)
        (fun _ j => if j = 0 then (1 : ℚ) else 0) e j) ∧
     totalMass 1 2 (simulate 1 2 (fun i j => (fun (_ _ : ℕ) => (1 : ℚ)) j i)
        (fun _ _ => 0) (fun _ _ => 1/2)
        (fun _ j => if j = 0 then (1 : ℚ) else 0)) = 1) :=
  ⟨fun _ _ j _ => by by_cases h : j = 0 <;> simp [h],
   by norm_num [totalMass, Finset.sum_range_succ],
   fun _ _ _ _ => ⟨by norm_num, by norm_num⟩,
   fun _ _ _ _ => by norm_num,
   fun _ _ _ _ => by norm_num,
   fun _ _ => by simp,
   C1_advance_mass_conservation 1 2 (fun _ _ => 1) (fun _ _ => 0)
     (fun _ _ => 1/2) (fun _ j => if j = 0 then (1 : ℚ) else 0)
     (fun _ _ j _ => by by_cases h : j = 0 <;> simp [h])
     (by norm_num [totalMass, Finset.sum_range_succ])
     (fun _ _ _ _ => ⟨by norm_num, by norm_num⟩)
     (fun _ _ _ _ => by norm_num)
     (fun _ _ _ _ => by norm_num)
     (fun _ _ => by simp)⟩

/-! ### Helper lemmas: in-place row updates -/

lemma updateRow_eq (M : Mat) (e : ℕ) (row : ℕ → ℚ) :
    updateRow M e row e = row := by
  funext j
  show (if e = e then row j else M e j) = row j
  rw [if_pos rfl]

lemma updateRow_ne (M : Mat) (e : ℕ) (row : ℕ → ℚ) (i : ℕ) (h : i ≠ e) :
    updateRow M e row i = M i := by
  funext j
  show (if i = e then row j else M i j) = M i j
  rw [if_neg h]

/-- The written rows of one in-place pass, with the reads of the
just-written `a` and `c` rows resolved. -/
lemma egmRowStep_components (Na : ℕ) (upInv upNeg : ℚ → ℚ) (g : ℕ → ℚ)
    (r : ℚ) (m : Mat) (margU : Mat) (s : Mat × Mat × Mat) (e : ℕ) :
    (egmRowStep Na upInv upNeg g r m margU s e).1 =
      updateRow s.1 e (fun j => (1 + r) * upNeg
        (m e j - clampRow (assetRow Na g (m_endo upInv g margU e) (m e)) j)) ∧
    (egmRowStep Na upInv upNeg g r m margU s e).2.1 =
      updateRow s.2.1 e (clampRow (assetRow Na g (m_endo upInv g margU e) (m e))) ∧
    (egmRowStep Na upInv upNeg g r m margU s e).2.2 =
      updateRow s.2.2 e (fun j =>
        m e j - clampRow (assetRow Na g (m_endo upInv g margU e) (m e)) j) := by
  refine ⟨?_, rfl, ?_⟩ <;> simp only [egmRowStep, updateRow_eq]

lemma foldl_egmRow_preserve (Na : ℕ) (upInv upNeg : ℚ → ℚ) (g : ℕ → ℚ)
    (r : ℚ) (m : Mat) (margU : Mat) :
    ∀ (l : List ℕ) (s : Mat × Mat × Mat) (e : ℕ), e ∉ l →
      (List.foldl (egmRowStep Na upInv upNeg g r m margU) s l).1 e = s.1 e ∧
      (List.foldl (egmRowStep Na upInv upNeg g r m margU) s l).2.1 e = s.2.1 e ∧
      (List.foldl (egmRowStep Na upInv upNeg g r m margU) s l).2.2 e = s.2.2 e := by
  intro l
  induction l with
  | nil => intro s e _; exact ⟨rfl, rfl, rfl⟩
  | cons a t ih =>
    intro s e he
    have hne : e ≠ a := fun hc => he (by rw [hc]; exact List.mem_cons_self a t)
    obtain ⟨h1, h2, h3⟩ := ih (egmRowStep Na upInv upNeg g r m margU s a) e
      (fun hc => he (List.mem_cons_of_mem a hc))
    rw [List.foldl_cons]
    obtain ⟨k1, k2, k3⟩ := egmRowStep_components Na upInv upNeg g r m margU s a
    exact ⟨by rw [h1, k1]; exact updateRow_ne _ _ _ _ hne,
           by rw [h2, k2]; exact updateRow_ne _ _ _ _ hne,
           by rw [h3, k3]; exact updateRow_ne _ _ _ _ hne⟩

lemma foldl_egmRow_mem (Na : ℕ) (upInv upNeg : ℚ → ℚ) (g : ℕ → ℚ)
    (r : ℚ) (m : Mat) (margU : Mat) :
    ∀ (l : List ℕ) (s : Mat × Mat × Mat) (e : ℕ), e ∈ l →
      (List.foldl (egmRowStep Na upInv upNeg g r m margU) s l).1 e =
        (fun j => (1 + r) * upNeg
          (m e j - clampRow (assetRow Na g (m_endo upInv g margU e) (m e)) j)) ∧
      (List.foldl (egmRowStep Na upInv upNeg g r m margU) s l).2.1 e =
        clampRow (assetRow Na g (m_endo upInv g margU e) (m e)) ∧
      (List.foldl (egmRowStep Na upInv upNeg g r m margU) s l).2.2 e =
        (fun j => m e j -
          clampRow (assetRow Na g (m_endo upInv g margU e) (m e)) j) := by
  intro l
  induction l with
  | nil => intro s e he; exact absurd he (List.not_mem_nil e)
  | cons a t ih =>
    intro s e he
    rw [List.foldl_cons]
    by_cases het : e ∈ t
    · exact ih _ e het
    · have hea : e = a := by
        rcases List.mem_cons.mp he with h | h
        · exact h
        · exact absurd h het
      subst hea
      obtain ⟨ht1, ht2, ht3⟩ := foldl_egmRow_preserve Na upInv upNeg g r m margU t
        (egmRowStep Na upInv upNeg g r m margU s e) e het
      obtain ⟨k1, k2, k3⟩ := egmRowStep_components Na upInv upNeg g r m margU s e
      exact ⟨by rw [ht1, k1]; exact updateRow_eq _ _ _,
             by rw [ht2, k2]; exact updateRow_eq _ _ _,
             by rw [ht3, k3]; exact updateRow_eq _ _ _⟩

/-- C9: the in-place steady-state call, which passes `sol.Va` as both the
continuation array `Va_p` and the output array `Va`, produces exactly the
same assets, consumption and marginal value as the step applied to a
separate copy of `Va_p` — because `marg_u_plus` is fully computed from
the aliased array before any element of `Va` is overwritten. -/
theorem C9_inplace_aliasing_equiv (Ne Na : ℕ) (beta : ℚ) (upInv upNeg : ℚ → ℚ)
    (e_trans : Mat) (g : ℕ → ℚ) (r w : ℚ) (m : Mat) (st : Mat × Mat × Mat)
    (e : ℕ) (he : e < Ne) (j : ℕ) :
    (time_iteration_inplace Ne Na beta upInv upNeg e_trans g r w m st).2.1 e j =
      (time_iteration Ne Na beta upInv upNeg e_trans g r w st.1 m).1 e j ∧
    (time_iteration_inplace Ne Na beta upInv upNeg e_trans g r w m st).2.2 e j =
      (time_iteration Ne Na beta upInv upNeg e_trans g r w st.1 m).2.1 e j ∧
    (time_iteration_inplace Ne Na beta upInv upNeg e_trans g r w m st).1 e j =
      (time_iteration Ne Na beta upInv upNeg e_trans g r w st.1 m).2.2 e j := by
  obtain ⟨m1, m2, m3⟩ := foldl_egmRow_mem Na upInv upNeg g r m
    (margUplus Ne beta e_trans st.1) (List.range Ne) st e (List.mem_range.mpr he)
  refine ⟨?_, ?_, ?_⟩
  · show (List.foldl (egmRowStep Na upInv upNeg g r m
        (margUplus Ne beta e_trans st.1)) st (List.range Ne)).2.1 e j = _
    rw [m2]
    rfl
  · show (List.foldl (egmRowStep Na upInv upNeg g r m
        (margUplus Ne beta e_trans st.1)) st (List.range Ne)).2.2 e j = _
    rw [m3]
    rfl
  · show (List.foldl (egmRowStep Na upInv upNeg g r m
        (margUplus Ne beta e_trans st.1)) st (List.range Ne)).1 e j = _
    rw [m1]
    rfl

/-- Witness for C9 at a concrete one-state model, cell `(0,0)`. -/
theorem C9_inplace_aliasing_equiv_witness :
    (0 < 1) ∧
    ((time_iteration_inplace 1 2 1 (fun _ => (1 : ℚ)) (fun x => x)
        (fun _ _ => 1) (fun n => (n : ℚ)) 0 0 (fun _ _ => 0)
        ((fun _ _ => 1), (fun _ _ => 0), (fun _ _ => 0))).2.1 0 0 =
      (time_iteration 1 2 1 (fun _ => (1 : ℚ)) (fun x => x) (fun _ _ => 1)
        (fun n => (n : ℚ)) 0 0 (fun _ _ => 1) (fun _ _ => 0)).1 0 0 ∧
     (time_iteration_inplace 1 2 1 (fun _ => (1 : ℚ)) (fun x => x)
        (fun _ _ => 1) (fun n => (n : ℚ)) 0 0 (fun _ _ => 0)
        ((fun _ _ => 1), (fun _ _ => 0), (fun _ _ => 0))).2.2 0 0 =
      (time_iteration 1 2 1 (fun _ => (1 : ℚ)) (fun x => x) (fun _ _ => 1)
        (fun n => (n : ℚ)) 0 0 (fun _ _ => 1) (fun _ _ => 0)).2.1 0 0 ∧
     (time_iteration_inplace 1 2 1 (fun _ => (1 : ℚ)) (fun x => x)
        (fun _ _ => 1) (fun n => (n : ℚ)) 0 0 (fun _ _ => 0)
        ((fun _ _ => 1), (fun _ _ => 0), (fun _ _ => 0))).1 0 0 =
      (time_iteration 1 2 1 (fun _ => (1 : ℚ)) (fun x => x) (fun _ _ => 1)
        (fun n => (n : ℚ)) 0 0 (fun _ _ => 1) (fun _ _ => 0)).2.2 0 0) :=
  ⟨by norm_num,
    C9_inplace_aliasing_equiv 1 2 1 (fun _ => (1 : ℚ)) (fun x => x)
      (fun _ _ => 1) (fun n => (n : ℚ)) 0 0 (fun _ _ => 0)
      ((fun _ _ => 1), (fun _ _ => 0), (fun _ _ => 0)) 0 (by norm_num) 0⟩

/-! ### Helper lemmas: the fixed-point loops -/

/-- The solve-style loop raises exactly when none of the first
`fuel + 1` steps meets the tolerance check. -/
lemma iterUntilNew_error_iff {S : Type} (step : S → S) (dist : S → S → ℚ)
    (tol : ℚ) :
    ∀ fuel s, iterUntilNew step dist tol fuel s = Except.error () ↔
      ∀ k ≤ fuel, ¬ dist (step^[k] s) (step^[k + 1] s) < tol := by
  intro fuel
  induction fuel with
  | zero =>
    intro s
    rw [iterUntilNew]
    by_cases h : dist s (step s) < tol
    · rw [if_pos h]
      constructor
      · intro hc; exact Except.noConfusion hc
      · intro hall
        have h0 := hall 0 (le_refl 0)
        simp only [Function.iterate_zero_apply, Function.iterate_one] at h0
        exact absurd h h0
    · rw [if_neg h]
      constructor
      · intro _ k hk
        have hk0 : k = 0 := Nat.le_zero.mp hk
        subst hk0
        simpa using h
      · intro _; rfl
  | succ n ih =>
    intro s
    rw [iterUntilNew]
    by_cases h : dist s (step s) < tol
    · rw [if_pos h]
      constructor
      · intro hc; exact Except.noConfusion hc
      · intro hall
        have h0 := hall 0 (by omega)
        simp only [Function.iterate_zero_apply, Function.iterate_one] at h0
        exact absurd h h0
    · rw [if_neg h, ih (step s)]
      constructor
      · intro hall k hk
        cases k with
        | zero => simpa using h
        | succ a =>
          have ha := hall a (by omega)
          rw [Function.iterate_succ_apply, Function.iterate_succ_apply]
          exact ha
      · intro hall k hk
        have ha := hall (k + 1) (by omega)
        rw [Function.iterate_succ_apply, Function.iterate_succ_apply] at ha
        exact ha

/-- The simulate-style loop (which returns the old state on success)
raises under exactly the same condition. -/
lemma iterUntilOld_error_iff {S : Type} (step : S → S) (dist : S → S → ℚ)
    (tol : ℚ) :
    ∀ fuel s, iterUntilOld step dist tol fuel s = Except.error () ↔
      ∀ k ≤ fuel, ¬ dist (step^[k] s) (step^[k + 1] s) < tol := by
  intro fuel
  induction fuel with
  | zero =>
    intro s
    rw [iterUntilOld]
    by_cases h : dist s (step s) < tol
    · rw [if_pos h]
      constructor
      · intro hc; exact Except.noConfusion hc
      · intro hall
        have h0 := hall 0 (le_refl 0)
        simp only [Function.iterate_zero_apply, Function.iterate_one] at h0
        exact absurd h h0
    · rw [if_neg h]
      constructor
      · intro _ k hk
        have hk0 : k = 0 := Nat.le_zero.mp hk
        subst hk0
        simpa using h
      · intro _; rfl
  | succ n ih =>
    intro s
    rw [iterUntilOld]
    by_cases h : dist s (step s) < tol
    · rw [if_pos h]
      constructor
      · intro hc; exact Except.noConfusion hc
      · intro hall
        have h0 := hall 0 (by omega)
        simp only [Function.iterate_zero_apply, Function.iterate_one] at h0
        exact absurd h h0
    · rw [if_neg h, ih (step s)]
      constructor
      · intro hall k hk
        cases k with
        | zero => simpa using h
        | succ a =>
          have ha := hall a (by omega)
          rw [Function.iterate_succ_apply, Function.iterate_succ_apply]
          exact ha
      · intro hall k hk
        have ha := hall (k + 1) (by omega)
        rw [Function.iterate_succ_apply, Function.iterate_succ_apply] at ha
        exact ha

/-- C3: each fixed-point loop raises its fatal exception if and only if
its convergence tolerance is not met within its configured iteration
budget (the cap counts failed checks exactly as the python counter
`it > max_iter` does, allowing `maxIter + 1` EGM / propagation steps);
on convergence it terminates normally with a result.  The solve loop
compares successive asset policies, the simulate loop successive
distributions. -/
theorem C3_convergence_failure_iff (Ne Na : ℕ) (beta : ℚ)
    (upInv upNeg : ℚ → ℚ) (e_trans : Mat) (e_grid g : ℕ → ℚ) (r w : ℚ)
    (maxIterSolve maxIterSim : ℕ) (solveTol simTol : ℚ)
    (st0 : Mat × Mat × Mat) (aPol : Mat) (D0 : Mat) :
    (solve_household_ss Ne Na beta upInv upNeg e_trans e_grid g r w
        maxIterSolve solveTol st0 = Except.error () ↔
      ∀ k ≤ maxIterSolve,
        ¬ maxAbsDiff Ne Na
            (((egmStep Ne Na beta upInv upNeg e_trans g r w
                (cash_on_hand g e_grid r w))^[k + 1] st0).1)
            (((egmStep Ne Na beta upInv upNeg e_trans g r w
                (cash_on_hand g e_grid r w))^[k] st0).1) < solveTol) ∧
    (simulate_ss Ne Na e_trans g aPol maxIterSim simTol D0 = Except.error () ↔
      ∀ k ≤ maxIterSim,
        ¬ maxAbsDiff Ne Na ((simStep Ne Na e_trans g aPol)^[k + 1] D0)
            ((simStep Ne Na e_trans g aPol)^[k] D0) < simTol) :=
  ⟨iterUntilNew_error_iff
      (egmStep Ne Na beta upInv upNeg e_trans g r w (cash_on_hand g e_grid r w))
      (fun s s2 => maxAbsDiff Ne Na s2.1 s.1) solveTol maxIterSolve st0,
   iterUntilOld_error_iff (simStep Ne Na e_trans g aPol)
      (fun D Dnew => maxAbsDiff Ne Na Dnew D) simTol maxIterSim D0⟩

end GEModel
